import Mathlib

/-
Verification of the single-byte-XOR attack repository.

Shallow embedding conventions:
- A byte sequence (the repository wraps `Vec<u8>` in `Data<B>`) is a `List Nat`
  whose elements are below 256; the byte operations used here (XOR, histogram
  counting) never leave that range, so no explicit modulus is needed.
- The `f32` arithmetic of the scorer is modelled over `ℚ`; the decimal literals
  of the frequency table are represented exactly.
- A Rust `panic!` (length-mismatch XOR, `unwrap` of a failed hex decode) is
  modelled as `none` of an `Option`-valued function.
-/

namespace Cryptopals

/-- Embedding of `BitXor for &Data<B>` (src/data.rs): XOR of two byte
sequences; panics (here: `none`) when the lengths differ, otherwise pairs the
sequences index by index with bitwise XOR. -/
def bitxor (a b : List Nat) : Option (List Nat) :=
  if a.length = b.length then some (List.zipWith (fun x y => x ^^^ y) a b) else none

/-- Embedding of `ENGLISH_CHAR_FREQUENCIES` (src/attack/single_byte_xor.rs):
the 27 expected relative frequencies for the symbols a-z and space, the `f32`
decimal literals read as exact rationals. -/
def ENGLISH_CHAR_FREQUENCIES : List ℚ :=
  [0.0653, 0.0126, 0.0223, 0.0328, 0.1027, 0.0198, 0.0162, 0.0498, 0.0567, 0.0010, 0.0056, 0.0332, 0.0203, 0.0517,
   0.0616, 0.0150, 0.0008, 0.0499, 0.0532, 0.0752, 0.0228, 0.0080, 0.0170, 0.0014, 0.0143, 0.0005, 0.1823]

/-- Embedding of the local `uppercase` helper of `freq_and_alphabet_score`. -/
def uppercase (b : Nat) : Prop := 65 ≤ b ∧ b ≤ 90

/-- Embedding of the local `lowercase` helper of `freq_and_alphabet_score`. -/
def lowercase (b : Nat) : Prop := 97 ≤ b ∧ b ≤ 122

instance (b : Nat) : Decidable (uppercase b) := inferInstanceAs (Decidable (65 ≤ b ∧ b ≤ 90))

instance (b : Nat) : Decidable (lowercase b) := inferInstanceAs (Decidable (97 ≤ b ∧ b ≤ 122))

/-- The index `j` computed inside the scoring loop of `freq_and_alphabet_score`:
uppercase maps to `i - 65`, space to `26`, lowercase to `i - 97`. -/
def freqIndex (i : Nat) : Nat := if uppercase i then i - 65 else if i = 32 then 26 else i - 97

/-- The local `diff` of one iteration of the scoring loop of
`freq_and_alphabet_score`: the histogram count of byte value `i` (the code
fills `counts` by one pass over the data, so bucket `i` holds `data.count i`),
minus the expected count for letters and space. -/
def scoreDiff (data : List Nat) (i : Nat) : ℚ :=
  if uppercase i ∨ lowercase i ∨ i = 32 then
    (data.count i : ℚ) - ENGLISH_CHAR_FREQUENCIES.getD (freqIndex i) 0 * (data.length : ℚ)
  else (data.count i : ℚ)

/-- Embedding of `freq_and_alphabet_score` (src/attack/single_byte_xor.rs):
accumulates `diff * diff` over the 256 byte values. -/
def freq_and_alphabet_score (data : List Nat) : ℚ :=
  (List.range 256).foldl (fun acc i => acc + scoreDiff data i * scoreDiff data i) 0

/-- The candidate plaintext for key byte `k`: the code XORs the ciphertext with
`build_key k = vec![k; n]`, which never hits the length-mismatch panic. -/
def decryptWith (ct : List Nat) (k : Nat) : List Nat :=
  List.zipWith (fun x y => x ^^^ y) ct (List.replicate ct.length k)

/-- One step of Rust `Iterator::min_by` (via `cmp::min_by`): keep the
accumulator unless the new element compares strictly smaller. -/
def minStep (a y : Nat × ℚ × List Nat) : Nat × ℚ × List Nat :=
  if y.2.1 < a.2.1 then y else a

/-- Rust `Iterator::min_by` on a list of candidates: `none` on an empty
iterator, otherwise a left fold of `minStep` from the first element (so the
first of several equal minima is kept). -/
def minByScore : List (Nat × ℚ × List Nat) → Option (Nat × ℚ × List Nat)
  | [] => none
  | x :: xs => some (xs.foldl minStep x)

/-- The candidate list built by `attack_single_byte_xor`: the two zipped
ranges `0..256` run in lockstep, so the label and the key agree. -/
def attackCandidates (ct : List Nat) : List (Nat × ℚ × List Nat) :=
  (List.range 256).map (fun k => (k, freq_and_alphabet_score (decryptWith ct k), decryptWith ct k))

/-- Embedding of `attack_single_byte_xor` (src/attack/single_byte_xor.rs):
`min_by` over the 256 scored candidates; the final `unwrap` is modelled by
keeping the `Option` (it is always `some`, proved below). -/
def attack_single_byte_xor (ct : List Nat) : Option (Nat × ℚ × List Nat) :=
  minByScore (attackCandidates ct)

/-- The value of one ASCII hex digit, as in the hex crate used by
`ASCIIData::from_hex`: digits, lowercase and uppercase letters a-f; `none`
for every other character. -/
def hexDigitVal (c : Nat) : Option Nat :=
  if 48 ≤ c ∧ c ≤ 57 then some (c - 48)
  else if 97 ≤ c ∧ c ≤ 102 then some (c - 87)
  else if 65 ≤ c ∧ c ≤ 70 then some (c - 55)
  else none

/-- Embedding of hex decoding as performed by `ASCIIData::from_hex`
(src/data.rs) through the hex crate: consume digit pairs; fail on odd length
or on any non-hex character. The `unwrap` in `from_hex` turns the typed
decode error into a panic; both failure channels are the `none` here. -/
def hexDecode : List Nat → Option (List Nat)
  | [] => some []
  | [_] => none
  | a :: b :: rest =>
    match hexDigitVal a, hexDigitVal b, hexDecode rest with
    | some hi, some lo, some tl => some ((16 * hi + lo) :: tl)
    | _, _, _ => none

/-- Embedding of `key.into_iter().cycle().take(n)` from
`encrypt_repeating_key_xor` (src/attack/repeating_key_xor.rs): cycling an
empty iterator yields nothing, otherwise element `i` is `key[i % key.len()]`. -/
def cycleTake (key : List Nat) (n : Nat) : List Nat :=
  if key.length = 0 then [] else (List.range n).map (fun i => key.getD (i % key.length) 0)

/-- Embedding of `encrypt_repeating_key_xor` (src/attack/repeating_key_xor.rs):
XOR the message with the cycled key truncated to the message length. -/
def encrypt_repeating_key_xor (message key : List Nat) : Option (List Nat) :=
  bitxor message (cycleTake key message.length)

/-- Modelled from the spec: the letter-density ratio of section 4.2, absent
from the source. It is the fraction of bytes that are letters or space, used
only to compare the claimed filtering behaviour with the code. -/
def letterRatioSpec (s : List Nat) : ℚ :=
  ((s.countP (fun b => decide (uppercase b ∨ lowercase b ∨ b = 32))) : ℚ) / (s.length : ℚ)

/-- Modelled from the spec: every one of the 256 candidates for `ct` is
rejected by the letter-ratio gate at the default threshold 0.7. -/
def specFilterRejectsAll (ct : List Nat) : Prop :=
  ∀ k, k < 256 → letterRatioSpec (decryptWith ct k) ≤ (0.7 : ℚ)

instance (ct : List Nat) : Decidable (specFilterRejectsAll ct) :=
  inferInstanceAs (Decidable (∀ k, k < 256 → _))

/-- The per-byte-value deviation exactly as the spec words it: an uppercase
letter, a lowercase letter or a space folds to one of the 27 table symbols and
deviates from `table[symbol] * len`, any other byte value contributes its raw
count. Stated separately from `scoreDiff` to compare spec and code. -/
def specDiff (seq : List Nat) (v : Nat) : ℚ :=
  if 65 ≤ v ∧ v ≤ 90 then
    (seq.count v : ℚ) - ENGLISH_CHAR_FREQUENCIES.getD (v - 65) 0 * (seq.length : ℚ)
  else if 97 ≤ v ∧ v ≤ 122 then
    (seq.count v : ℚ) - ENGLISH_CHAR_FREQUENCIES.getD (v - 97) 0 * (seq.length : ℚ)
  else if v = 32 then
    (seq.count v : ℚ) - ENGLISH_CHAR_FREQUENCIES.getD 26 0 * (seq.length : ℚ)
  else (seq.count v : ℚ)

/-
Integer-scaled mirror of the scorer and the attack. Every score is the exact
rational score times 10^8 (each diff times 10^4), so selection and ties are
preserved; this form evaluates cheaply. The bridge lemmas below prove the
correspondence, so every claim is stated about the definitions above.
-/

/-- The frequency table times 10^4, as integers. -/
def SCALED_FREQUENCIES : List ℤ :=
  [653, 126, 223, 328, 1027, 198, 162, 498, 567, 10, 56, 332, 203, 517,
   616, 150, 8, 499, 532, 752, 228, 80, 170, 14, 143, 5, 1823]

/-- `scoreDiff` times 10^4, over the integers. -/
def scaledDiff (data : List Nat) (i : Nat) : ℤ :=
  if uppercase i ∨ lowercase i ∨ i = 32 then
    (data.count i : ℤ) * 10000 - SCALED_FREQUENCIES.getD (freqIndex i) 0 * (data.length : ℤ)
  else (data.count i : ℤ) * 10000

/-- `freq_and_alphabet_score` times 10^8, over the integers. -/
def scaledScore (data : List Nat) : ℤ :=
  (List.range 256).foldl (fun acc i => acc + scaledDiff data i * scaledDiff data i) 0

/-- The scaled expected-count coefficient of byte value `i`: the table entry
for letters and space, `0` for every other byte value. `scaledDiff` is then
uniformly `count * 10^4 - coefficient * length`. -/
def scaledLetterFreq (i : Nat) : ℤ :=
  if uppercase i ∨ lowercase i ∨ i = 32 then SCALED_FREQUENCIES.getD (freqIndex i) 0 else 0

/-- The constant `sum of scaledLetterFreq i ^ 2` over the 256 byte values. -/
def LETTER_SQ : ℤ :=
  (List.range 256).foldl (fun acc i => acc + scaledLetterFreq i * scaledLetterFreq i) 0

/-- An algebraically equivalent form of `scaledScore` that walks the data
instead of the 256 buckets; proved equal to `scaledScore` below and used only
to keep concrete evaluations cheap. -/
def fastScore (data : List Nat) : ℤ :=
  100000000 * (data.map (fun b => (data.count b : ℤ))).sum
    - 20000 * (data.length : ℤ) * (data.map (fun b => scaledLetterFreq b)).sum
    + (data.length : ℤ) * (data.length : ℤ) * LETTER_SQ

/-
Helper lemmas.
-/

/-- A left fold that only accumulates sums over `List.range n` is the finite
sum over `Finset.range n`. -/
theorem foldl_add_sum {M : Type} [AddCommMonoid M] (g : Nat → M) (c : M) (n : Nat) :
    (List.range n).foldl (fun acc i => acc + g i) c = c + ∑ i ∈ Finset.range n, g i := by
  induction n generalizing c with
  | zero => simp
  | succ m ih =>
    rw [List.range_succ, List.foldl_append, ih, Finset.sum_range_succ]
    simp [add_assoc]

/-- The code diff and the spec diff agree bucket by bucket. -/
theorem scoreDiff_eq_specDiff (data : List Nat) (v : Nat) : scoreDiff data v = specDiff data v := by
  unfold scoreDiff specDiff freqIndex uppercase lowercase
  split_ifs <;> first | rfl | omega

/-- The exact rational table is the scaled integer table divided by 10^4. -/
theorem freq_table_scaled :
    ENGLISH_CHAR_FREQUENCIES = SCALED_FREQUENCIES.map (fun z => (z : ℚ) / 10000) := by
  norm_num [ENGLISH_CHAR_FREQUENCIES, SCALED_FREQUENCIES]

theorem freq_table_getD (j : Nat) (hj : j < 27) :
    ENGLISH_CHAR_FREQUENCIES.getD j 0 = (SCALED_FREQUENCIES.getD j 0 : ℚ) / 10000 := by
  interval_cases j <;>
    simp [ENGLISH_CHAR_FREQUENCIES, SCALED_FREQUENCIES, List.getD_cons_zero, List.getD_cons_succ] <;>
    norm_num

/-- `scaledDiff` in the uniform linear form used by `fastScore`. -/
theorem scaledDiff_eq_linear (data : List Nat) (i : Nat) :
    scaledDiff data i = (data.count i : ℤ) * 10000 - scaledLetterFreq i * (data.length : ℤ) := by
  unfold scaledDiff scaledLetterFreq
  split_ifs <;> ring

/-- The rational diff is the scaled integer diff divided by 10^4. -/
theorem scoreDiff_scaled (data : List Nat) (i : Nat) :
    scoreDiff data i = (scaledDiff data i : ℚ) / 10000 := by
  unfold scoreDiff scaledDiff
  split_ifs with h
  · have hj : freqIndex i < 27 := by
      unfold freqIndex uppercase at *
      unfold lowercase at h
      split_ifs <;> omega
    rw [freq_table_getD _ hj]
    push_cast
    ring
  · push_cast
    ring

/-- The rational score is the scaled integer score divided by 10^8. -/
theorem freq_score_eq (data : List Nat) :
    freq_and_alphabet_score data = (scaledScore data : ℚ) / 100000000 := by
  unfold freq_and_alphabet_score scaledScore
  rw [foldl_add_sum (fun i => scoreDiff data i * scoreDiff data i) 0 256,
    foldl_add_sum (fun i => scaledDiff data i * scaledDiff data i) 0 256]
  rw [zero_add, zero_add, eq_div_iff (by norm_num), Finset.sum_mul]
  push_cast
  refine Finset.sum_congr rfl (fun i _ => ?_)
  rw [scoreDiff_scaled]
  calc (scaledDiff data i : ℚ) / 10000 * ((scaledDiff data i : ℚ) / 10000) * 100000000
      = (scaledDiff data i : ℚ) * (scaledDiff data i : ℚ) * (100000000 / (10000 * 10000)) := by
        ring
    _ = (scaledDiff data i : ℚ) * (scaledDiff data i : ℚ) := by norm_num

/-- Strict comparison of rational scores matches the scaled integer scores. -/
theorem score_lt_iff (d1 d2 : List Nat) :
    freq_and_alphabet_score d1 < freq_and_alphabet_score d2 ↔ scaledScore d1 < scaledScore d2 := by
  rw [freq_score_eq d1, freq_score_eq d2,
    div_lt_div_iff_of_pos_right (by norm_num : (0 : ℚ) < 100000000)]
  exact Int.cast_lt

/-- Weak comparison of rational scores matches the scaled integer scores. -/
theorem score_le_iff (d1 d2 : List Nat) :
    freq_and_alphabet_score d1 ≤ freq_and_alphabet_score d2 ↔ scaledScore d1 ≤ scaledScore d2 := by
  rw [freq_score_eq d1, freq_score_eq d2,
    div_le_div_iff_of_pos_right (by norm_num : (0 : ℚ) < 100000000)]
  exact Int.cast_le

/-- Equality of rational scores matches the scaled integer scores. -/
theorem score_eq_iff (d1 d2 : List Nat) :
    freq_and_alphabet_score d1 = freq_and_alphabet_score d2 ↔ scaledScore d1 = scaledScore d2 := by
  rw [le_antisymm_iff, le_antisymm_iff, score_le_iff, score_le_iff]

/-- Summing `count i * g i` over all buckets is summing `g` over the data. -/
theorem count_mul_sum (data : List Nat) (g : Nat → ℤ) (n : Nat) (h : ∀ b ∈ data, b < n) :
    ∑ i ∈ Finset.range n, (data.count i : ℤ) * g i = (data.map (fun b => g b)).sum := by
  induction data with
  | nil => simp
  | cons b t ih =>
    have hb : b < n := h b (List.mem_cons_self b t)
    have ht : ∀ x ∈ t, x < n := fun x hx => h x (List.mem_cons_of_mem b hx)
    have hcount : ∀ i : Nat, ((b :: t).count i : ℤ) = (t.count i : ℤ) + (if i = b then 1 else 0) := by
      intro i
      rcases eq_or_ne i b with rfl | hne
      · simp [List.count_cons_self]
      · simp [List.count_cons_of_ne hne, hne]
    simp only [List.map_cons, List.sum_cons]
    rw [← ih ht]
    calc ∑ i ∈ Finset.range n, ((b :: t).count i : ℤ) * g i
        = ∑ i ∈ Finset.range n, ((t.count i : ℤ) * g i + (if i = b then g i else 0)) := by
          refine Finset.sum_congr rfl fun i _ => ?_
          rw [hcount i]
          split_ifs <;> ring
      _ = (∑ i ∈ Finset.range n, (t.count i : ℤ) * g i) + ∑ i ∈ Finset.range n, (if i = b then g i else 0) :=
          Finset.sum_add_distrib
      _ = (∑ i ∈ Finset.range n, (t.count i : ℤ) * g i) + g b := by
          rw [Finset.sum_ite_eq' (Finset.range n) b g]
          simp [Finset.mem_range.mpr hb]
      _ = g b + ∑ i ∈ Finset.range n, (t.count i : ℤ) * g i := by ring

/-- `scaledScore` agrees with the cheap-to-evaluate `fastScore` on byte data. -/
theorem scaledScore_eq_fast (data : List Nat) (h : ∀ b ∈ data, b < 256) :
    scaledScore data = fastScore data := by
  unfold scaledScore fastScore
  rw [foldl_add_sum (fun i => scaledDiff data i * scaledDiff data i) 0 256, zero_add]
  have hLSQ : LETTER_SQ = ∑ i ∈ Finset.range 256, scaledLetterFreq i * scaledLetterFreq i := by
    unfold LETTER_SQ
    rw [foldl_add_sum (fun i => scaledLetterFreq i * scaledLetterFreq i) 0 256, zero_add]
  rw [hLSQ]
  have hterm : ∀ i, scaledDiff data i * scaledDiff data i
      = 100000000 * ((data.count i : ℤ) * (data.count i : ℤ))
        - 20000 * (data.length : ℤ) * ((data.count i : ℤ) * scaledLetterFreq i)
        + (data.length : ℤ) * (data.length : ℤ) * (scaledLetterFreq i * scaledLetterFreq i) := by
    intro i
    rw [scaledDiff_eq_linear]
    ring
  rw [Finset.sum_congr rfl (fun i _ => hterm i), Finset.sum_add_distrib, Finset.sum_sub_distrib,
    ← Finset.mul_sum, ← Finset.mul_sum, ← Finset.mul_sum,
    count_mul_sum data (fun i => (data.count i : ℤ)) 256 h,
    count_mul_sum data (fun i => scaledLetterFreq i) 256 h]

/-- The left fold of `minStep` picks an element of minimal score, and every
element strictly before it in the list has strictly larger score (Rust
`min_by` keeps the first of equal minima). -/
theorem foldl_minStep_decomp (xs : List (Nat × ℚ × List Nat)) (x : Nat × ℚ × List Nat) :
    ∃ l₁ l₂, x :: xs = l₁ ++ (xs.foldl minStep x) :: l₂
      ∧ (∀ y ∈ x :: xs, (xs.foldl minStep x).2.1 ≤ y.2.1)
      ∧ (∀ y ∈ l₁, (xs.foldl minStep x).2.1 < y.2.1) := by
  induction xs generalizing x with
  | nil =>
    refine ⟨[], [], rfl, ?_, by simp⟩
    intro y hy
    rw [List.mem_singleton] at hy
    subst hy
    exact le_rfl
  | cons y ys ih =>
    rw [List.foldl_cons]
    rcases ih (minStep x y) with ⟨l₁, l₂, heq, hmin, hstrict⟩
    by_cases h : y.2.1 < x.2.1
    · have hstep : minStep x y = y := by simp [minStep, h]
      rw [hstep]
      rw [hstep] at heq hmin hstrict
      refine ⟨x :: l₁, l₂, ?_, ?_, ?_⟩
      · rw [List.cons_append, ← heq]
      · intro z hz
        rcases List.mem_cons.mp hz with hzx | hz'
        · subst hzx
          exact le_trans (hmin y (List.mem_cons_self y ys)) (le_of_lt h)
        · exact hmin z hz'
      · intro z hz
        rcases List.mem_cons.mp hz with hzx | hz'
        · subst hzx
          exact lt_of_le_of_lt (hmin y (List.mem_cons_self y ys)) h
        · exact hstrict z hz'
    · have hstep : minStep x y = x := by simp [minStep, h]
      rw [hstep]
      rw [hstep] at heq hmin hstrict
      have hxy : x.2.1 ≤ y.2.1 := le_of_not_lt h
      cases l₁ with
      | nil =>
        rw [List.nil_append] at heq
        have hr : ys.foldl minStep x = x := (List.cons.inj heq.symm).1
        have hl₂ : l₂ = ys := (List.cons.inj heq.symm).2
        refine ⟨[], y :: ys, ?_, ?_, by simp⟩
        · rw [List.nil_append, hr]
        · intro z hz
          rcases List.mem_cons.mp hz with hzx | hz'
          · subst hzx
            exact hmin z (List.mem_cons_self z ys)
          rcases List.mem_cons.mp hz' with hzy | hz''
          · subst hzy
            rw [hr]
            exact hxy
          · exact hmin z (List.mem_cons_of_mem x hz'')
      | cons a t =>
        rw [List.cons_append] at heq
        have ha : x = a := (List.cons.inj heq).1
        have hys : ys = t ++ (ys.foldl minStep x) :: l₂ := (List.cons.inj heq).2
        have hax : (ys.foldl minStep x).2.1 < x.2.1 := by
          have h' := hstrict a (List.mem_cons_self a t)
          rw [← ha] at h'
          exact h'
        refine ⟨x :: y :: t, l₂, ?_, ?_, ?_⟩
        · rw [List.cons_append, List.cons_append, ← hys]
        · intro z hz
          rcases List.mem_cons.mp hz with hzx | hz'
          · subst hzx
            exact le_of_lt hax
          rcases List.mem_cons.mp hz' with hzy | hz''
          · subst hzy
            exact le_trans (le_of_lt hax) hxy
          · exact hmin z (List.mem_cons_of_mem x hz'')
        · intro z hz
          rcases List.mem_cons.mp hz with hzx | hz'
          · subst hzx
            exact hax
          rcases List.mem_cons.mp hz' with hzy | hz''
          · subst hzy
            exact lt_of_lt_of_le hax hxy
          · exact hstrict z (List.mem_cons_of_mem a hz'')

/-- Decomposing a mapped range around one element recovers its index. -/
theorem map_range_decomp {α : Type} (f : Nat → α) (n : Nat) (l₁ : List α) (r : α) (l₂ : List α)
    (heq : (List.range n).map f = l₁ ++ r :: l₂) :
    ∃ i, i < n ∧ r = f i ∧ l₁ = (List.range i).map f := by
  induction l₁ generalizing f n with
  | nil =>
    cases n with
    | zero => simp at heq
    | succ m =>
      rw [List.range_succ_eq_map, List.map_cons, List.nil_append] at heq
      exact ⟨0, Nat.succ_pos m, ((List.cons.inj heq).1).symm, by simp⟩
  | cons a t ih =>
    cases n with
    | zero => simp at heq
    | succ m =>
      rw [List.range_succ_eq_map, List.map_cons, List.map_map, List.cons_append] at heq
      have h1 : f 0 = a := (List.cons.inj heq).1
      rcases ih (f ∘ Nat.succ) m (List.cons.inj heq).2 with ⟨i, hi, hr, ht⟩
      refine ⟨i + 1, by omega, hr, ?_⟩
      rw [List.range_succ_eq_map, List.map_cons, List.map_map, ← h1, ht]

/-- One unfolding of `minByScore` over a mapped range. -/
theorem minByScore_map_range (f : Nat → Nat × ℚ × List Nat) (n : Nat) :
    minByScore ((List.range (n + 1)).map f)
      = some (((List.range n).map (f ∘ Nat.succ)).foldl minStep (f 0)) := by
  rw [List.range_succ_eq_map, List.map_cons, List.map_map]
  rfl

/-- Splitting a mapped range at its head. -/
theorem map_range_head {α : Type} (f : Nat → α) (n : Nat) :
    (List.range (n + 1)).map f = f 0 :: (List.range n).map (f ∘ Nat.succ) := by
  rw [List.range_succ_eq_map, List.map_cons, List.map_map]

set_option maxRecDepth 2000 in
/-- Full characterisation of the attack result: it is `some` of the candidate
at some key `i < 256` whose score is minimal among all 256 candidates, every
key before `i` scoring strictly worse. -/
theorem attack_spec (ct : List Nat) :
    ∃ i, i < 256
      ∧ attack_single_byte_xor ct
          = some (i, freq_and_alphabet_score (decryptWith ct i), decryptWith ct i)
      ∧ (∀ j, j < 256 →
          freq_and_alphabet_score (decryptWith ct i) ≤ freq_and_alphabet_score (decryptWith ct j))
      ∧ (∀ j, j < i →
          freq_and_alphabet_score (decryptWith ct i) < freq_and_alphabet_score (decryptWith ct j)) := by
  have h256 : (256 : Nat) = 255 + 1 := rfl
  have hatk : attack_single_byte_xor ct
      = some (((List.range 255).map
            ((fun k => (k, freq_and_alphabet_score (decryptWith ct k), decryptWith ct k)) ∘ Nat.succ)).foldl
          minStep (0, freq_and_alphabet_score (decryptWith ct 0), decryptWith ct 0)) := by
    show minByScore ((List.range 256).map
        (fun k => (k, freq_and_alphabet_score (decryptWith ct k), decryptWith ct k))) = _
    rw [h256]
    exact minByScore_map_range _ 255
  rcases foldl_minStep_decomp
      ((List.range 255).map
        ((fun k => (k, freq_and_alphabet_score (decryptWith ct k), decryptWith ct k)) ∘ Nat.succ))
      (0, freq_and_alphabet_score (decryptWith ct 0), decryptWith ct 0) with ⟨l₁, l₂, heq, hmin, hstrict⟩
  have hlist : (List.range 256).map
        (fun k => (k, freq_and_alphabet_score (decryptWith ct k), decryptWith ct k))
      = (0, freq_and_alphabet_score (decryptWith ct 0), decryptWith ct 0)
        :: (List.range 255).map
          ((fun k => (k, freq_and_alphabet_score (decryptWith ct k), decryptWith ct k)) ∘ Nat.succ) := by
    rw [h256]
    exact map_range_head _ 255
  rcases map_range_decomp
      (fun k => (k, freq_and_alphabet_score (decryptWith ct k), decryptWith ct k)) 256 l₁ _ l₂
      (hlist.trans heq) with ⟨i, hi, hr, hl₁⟩
  refine ⟨i, hi, ?_, ?_, ?_⟩
  · rw [hatk, hr]
  · intro j hj
    have hmem : (j, freq_and_alphabet_score (decryptWith ct j), decryptWith ct j)
        ∈ (0, freq_and_alphabet_score (decryptWith ct 0), decryptWith ct 0)
          :: (List.range 255).map
            ((fun k => (k, freq_and_alphabet_score (decryptWith ct k), decryptWith ct k)) ∘ Nat.succ) := by
      rw [← hlist]
      exact List.mem_map_of_mem _ (List.mem_range.mpr hj)
    have h := hmin _ hmem
    rw [hr] at h
    exact h
  · intro j hj
    have hmem : (j, freq_and_alphabet_score (decryptWith ct j), decryptWith ct j) ∈ l₁ := by
      rw [hl₁]
      exact List.mem_map_of_mem _ (List.mem_range.mpr hj)
    have h := hstrict _ hmem
    rw [hr] at h
    exact h

/-- The attack never fails: the candidate iterator is never empty. -/
theorem attack_ne_none (ct : List Nat) : attack_single_byte_xor ct ≠ none := by
  rcases attack_spec ct with ⟨i, _, heq, _, _⟩
  rw [heq]
  exact Option.some_ne_none _

/-- The score of the empty sequence is zero: every bucket count and the
length are zero, so every diff vanishes. -/
theorem score_nil : freq_and_alphabet_score [] = 0 := by
  unfold freq_and_alphabet_score
  rw [foldl_add_sum (fun i => scoreDiff [] i * scoreDiff [] i) 0 256, zero_add]
  refine Finset.sum_eq_zero fun i _ => ?_
  have hd : scoreDiff [] i = 0 := by
    unfold scoreDiff
    split_ifs <;> simp
  rw [hd, mul_zero]

/-- On the empty ciphertext all 256 candidates tie at score zero and the
fold keeps the first, key 0. -/
theorem attack_nil : attack_single_byte_xor [] = some (0, 0, []) := by
  rcases attack_spec [] with ⟨i, hi, heq, _, hstrict⟩
  have hd : ∀ k : Nat, decryptWith [] k = [] := fun k => rfl
  have hi0 : i = 0 := by
    by_contra hne
    have h0 := hstrict 0 (Nat.pos_of_ne_zero hne)
    rw [hd, hd, score_nil] at h0
    exact absurd h0 (lt_irrefl 0)
  subst hi0
  rw [hd, score_nil] at heq
  exact heq

/-- A fraction of at most one half is below the 0.7 gate. -/
theorem ratio_le_helper (c : Nat) (hc : c ≤ 1) : (c : ℚ) / 2 ≤ (0.7 : ℚ) := by
  rw [div_le_iff₀ (by norm_num : (0 : ℚ) < 2)]
  calc (c : ℚ) ≤ 1 := by exact_mod_cast hc
    _ ≤ 0.7 * 2 := by norm_num

/-- XOR with a key below 256 keeps bytes below 256. -/
theorem decryptWith_mem_lt (ct : List Nat) (k : Nat) (hct : ∀ b ∈ ct, b < 256) (hk : k < 256) :
    ∀ b ∈ decryptWith ct k, b < 256 := by
  unfold decryptWith
  generalize ct.length = n
  induction ct generalizing n with
  | nil => simp
  | cons c t ih =>
    cases n with
    | zero => simp
    | succ m =>
      rw [List.replicate_succ, List.zipWith_cons_cons]
      intro b hb
      rcases List.mem_cons.mp hb with hbc | hbt
      · subst hbc
        have hc : c < 2 ^ 8 := hct c (List.mem_cons_self c t)
        have hk8 : k < 2 ^ 8 := hk
        exact Nat.xor_lt_two_pow hc hk8
      · exact ih (fun x hx => hct x (List.mem_cons_of_mem c hx)) m b hbt

/-- The squared-counts part of `fastScore`. -/
def countSq (d : List Nat) : ℤ := (d.map (fun b => (d.count b : ℤ))).sum

/-- The letter-weight part of `fastScore`. -/
def letterWeight (d : List Nat) : ℤ := (d.map (fun b => scaledLetterFreq b)).sum

theorem fastScore_eq_parts (d : List Nat) :
    fastScore d = (100000000 * countSq d + (d.length : ℤ) * (d.length : ℤ) * LETTER_SQ)
      - (20000 * (d.length : ℤ)) * letterWeight d := by
  unfold fastScore countSq letterWeight
  ring

/-- XOR with a constant key is a plain map over the data. -/
theorem decryptWith_eq_map (ct : List Nat) (k : Nat) :
    decryptWith ct k = ct.map (fun b => b ^^^ k) := by
  unfold decryptWith
  induction ct with
  | nil => rfl
  | cons c t ih =>
    rw [List.length_cons, List.replicate_succ, List.zipWith_cons_cons, List.map_cons]
    rw [ih]

theorem xor_right_injective (k : Nat) : Function.Injective (fun b => b ^^^ k) := by
  intro a b h
  have h2 := congrArg (fun x => x ^^^ k) h
  simpa [Nat.xor_assoc, Nat.xor_self, Nat.xor_zero] using h2

/-- XOR with a key permutes the histogram, so the squared-counts part of the
score does not depend on the key. -/
theorem countSq_decryptWith (ct : List Nat) (k : Nat) :
    countSq (decryptWith ct k) = countSq ct := by
  rw [decryptWith_eq_map]
  unfold countSq
  rw [List.map_map]
  refine congrArg List.sum (List.map_congr_left fun b _ => ?_)
  show ((ct.map (fun x => x ^^^ k)).count (b ^^^ k) : ℤ) = (ct.count b : ℤ)
  rw [List.count_map_of_injective ct (fun x => x ^^^ k) (xor_right_injective k) b]

theorem length_decryptWith (ct : List Nat) (k : Nat) :
    (decryptWith ct k).length = ct.length := by
  simp [decryptWith]

/-- When two sequences have the same squared-counts part and the same positive
length, comparing scores is comparing letter weights the opposite way. -/
theorem fastScore_lt_iff (d1 d2 : List Nat) (hA : countSq d1 = countSq d2)
    (hlen : d1.length = d2.length) (hpos : 0 < d2.length) :
    fastScore d1 < fastScore d2 ↔ letterWeight d2 < letterWeight d1 := by
  rw [fastScore_eq_parts, fastScore_eq_parts, hA, hlen]
  have hp : (0 : ℤ) < 20000 * (d2.length : ℤ) := by
    have h2 : (0 : ℤ) < (d2.length : ℤ) := by exact_mod_cast hpos
    nlinarith
  rw [sub_lt_sub_iff_left, mul_lt_mul_left hp]

/-- Self-inverse of `zipWith` XOR on equal-length lists. -/
theorem zipWith_xor_cancel (m k : List Nat) (h : m.length = k.length) :
    List.zipWith (fun x y => x ^^^ y) (List.zipWith (fun x y => x ^^^ y) m k) k = m := by
  induction m generalizing k with
  | nil => simp
  | cons a t ih =>
    cases k with
    | nil => simp at h
    | cons b u =>
      rw [List.zipWith_cons_cons, List.zipWith_cons_cons]
      have ht : t.length = u.length := by simpa using h
      rw [ih u ht]
      congr 1
      rw [Nat.xor_assoc, Nat.xor_self, Nat.xor_zero]

/-- Pointwise description of `zipWith` XOR through `getD`. -/
theorem getD_zipWith_xor (a b : List Nat) (i : Nat)
    (hi : i < (List.zipWith (fun x y => x ^^^ y) a b).length) :
    (List.zipWith (fun x y => x ^^^ y) a b).getD i 0 = (a.getD i 0) ^^^ (b.getD i 0) := by
  induction a generalizing b i with
  | nil => simp at hi
  | cons x t ih =>
    cases b with
    | nil => simp at hi
    | cons y u =>
      cases i with
      | zero => rfl
      | succ j =>
        rw [List.zipWith_cons_cons] at hi
        rw [List.zipWith_cons_cons, List.getD_cons_succ, List.getD_cons_succ, List.getD_cons_succ]
        exact ih u j (by simpa using hi)

/-
The ciphertext, plaintext and attack of challenge 3 (test_attack in
src/attack/single_byte_xor.rs).
-/

/-- The ASCII codes of the challenge 3 hex string literal. -/
def c3HexString : List Nat :=
  "1b37373331363f78151b7f2b783431333d78397828372d363c78373e783a393b3736".data.map
    (fun c => c.toNat)

/-- The bytes the challenge 3 hex string decodes to. -/
def c3Ciphertext : List Nat :=
  [27, 55, 55, 51, 49, 54, 63, 120, 21, 27, 127, 43, 120, 52, 49, 51, 61, 120, 57, 120,
   40, 55, 45, 54, 60, 120, 55, 62, 120, 58, 57, 59, 55, 54]

/-- The ASCII codes of the expected challenge 3 plaintext. -/
def c3Plaintext : List Nat :=
  "Cooking MC's like a pound of bacon".data.map (fun c => c.toNat)

/-
Claim theorems.
-/

set_option maxRecDepth 4000 in
/-- C1 (counterexample): on the ciphertext `[0, 128]` every one of the 256
candidates has letter ratio at most 0.7, so per the claim the attack should
fail with `NoValidCandidateError`; the code still returns a result. -/
theorem c1_counterexample : specFilterRejectsAll [0, 128] ∧ attack_single_byte_xor [0, 128] ≠ none := by
  constructor
  · intro k hk
    have hall : ∀ j, j < 256 → (decryptWith [0, 128] j).countP
        (fun b => decide (uppercase b ∨ lowercase b ∨ b = 32)) ≤ 1 := by decide
    have hlen : (decryptWith [0, 128] k).length = 2 := by
      simp [decryptWith]
    unfold letterRatioSpec
    rw [hlen]
    push_cast
    exact ratio_le_helper _ (hall k hk)
  · exact attack_ne_none [0, 128]

/-- C1 (amended): the attack applies no letter-ratio filter and can never
fail: for every ciphertext it returns the minimum-distance candidate over all
256 keys, even when every candidate is below the 0.7 letter-ratio gate of the
spec. -/
theorem c1_attack_unfiltered_minimum (ct : List Nat) :
    ∃ k s pt, attack_single_byte_xor ct = some (k, s, pt)
      ∧ k < 256
      ∧ s = freq_and_alphabet_score (decryptWith ct k)
      ∧ pt = decryptWith ct k
      ∧ ∀ j, j < 256 → s ≤ freq_and_alphabet_score (decryptWith ct j) := by
  rcases attack_spec ct with ⟨i, hi, heq, hmin, _⟩
  exact ⟨i, _, _, heq, hi, rfl, rfl, hmin⟩

/-- C1 witness: the amended statement at the all-filtered ciphertext. -/
theorem c1_witness :
    ∃ k s pt, attack_single_byte_xor [0, 128] = some (k, s, pt)
      ∧ k < 256
      ∧ s = freq_and_alphabet_score (decryptWith [0, 128] k)
      ∧ pt = decryptWith [0, 128] k
      ∧ ∀ j, j < 256 → s ≤ freq_and_alphabet_score (decryptWith [0, 128] j) :=
  c1_attack_unfiltered_minimum [0, 128]

/-- C2: when a candidate ties the returned minimal distance, the returned key
is not larger: ascending iteration plus first-of-equals `min_by` selection. -/
theorem c2_tie_break_smallest_key (ct : List Nat) (k : Nat) (s : ℚ) (pt : List Nat) (j : Nat)
    (hatk : attack_single_byte_xor ct = some (k, s, pt)) (hj : j < 256)
    (hs : freq_and_alphabet_score (decryptWith ct j) = s) : k ≤ j := by
  rcases attack_spec ct with ⟨i, hi, heq, hmin, hstrict⟩
  rw [heq] at hatk
  injection hatk with htup
  injection htup with hk hrest
  injection hrest with hsv hptv
  subst hk
  by_contra hlt
  have hst := hstrict j (Nat.not_le.mp hlt)
  rw [hs, hsv] at hst
  exact absurd hst (lt_irrefl s)

/-- C2 witness: on the empty ciphertext all keys tie at distance 0 and the
returned key 0 is at most any tying key, here 7. -/
theorem c2_witness : attack_single_byte_xor [] = some (0, 0, []) ∧ (0 : Nat) ≤ 7 := by
  have h1 := attack_nil
  have h3 : freq_and_alphabet_score (decryptWith [] 7) = 0 := score_nil
  exact ⟨h1, c2_tie_break_smallest_key [] 0 0 [] 7 h1 (by norm_num) h3⟩

set_option maxRecDepth 4000 in
set_option maxHeartbeats 8000000 in
/-- C3: decoding the challenge 3 hex string and attacking the result returns
key 88 together with the ASCII plaintext of the known English sentence. -/
theorem c3_attack_known_answer :
    (hexDecode c3HexString).bind
      (fun ct => (attack_single_byte_xor ct).map (fun r => (r.1, r.2.2)))
      = some (88, c3Plaintext) := by
  have hhex : hexDecode c3HexString = some c3Ciphertext := by decide
  rw [hhex]
  show (attack_single_byte_xor c3Ciphertext).map (fun r => (r.1, r.2.2)) = some (88, c3Plaintext)
  have hct : ∀ b ∈ c3Ciphertext, b < 256 := by decide
  have hB88 : letterWeight (decryptWith c3Ciphertext 88) = 22076 := by decide
  have hB : ∀ j, j < 256 → j ≠ 88 →
      letterWeight (decryptWith c3Ciphertext j) < 22076 := by decide
  have hscore : ∀ j, j < 256 → j ≠ 88 →
      freq_and_alphabet_score (decryptWith c3Ciphertext 88)
        < freq_and_alphabet_score (decryptWith c3Ciphertext j) := by
    intro j hj hne
    rw [score_lt_iff,
      scaledScore_eq_fast _ (decryptWith_mem_lt _ _ hct (by norm_num)),
      scaledScore_eq_fast _ (decryptWith_mem_lt _ _ hct hj),
      fastScore_lt_iff _ _
        ((countSq_decryptWith c3Ciphertext 88).trans (countSq_decryptWith c3Ciphertext j).symm)
        (by rw [length_decryptWith, length_decryptWith])
        (by rw [length_decryptWith]; decide),
      hB88]
    exact hB j hj hne
  rcases attack_spec c3Ciphertext with ⟨i, hi, heq, hmin, _⟩
  have hi88 : i = 88 := by
    by_contra hne
    have h1 := hmin 88 (by norm_num)
    have h2 := hscore i hi hne
    exact absurd (lt_of_lt_of_le h2 h1) (lt_irrefl _)
  subst hi88
  rw [heq]
  have hpt : decryptWith c3Ciphertext 88 = c3Plaintext := by decide
  rw [hpt]
  rfl

/-- C4: the score is exactly the sum over the 256 byte values of the squared
deviation described by the spec. -/
theorem c4_score_is_sum_of_squared_diffs (seq : List Nat) :
    freq_and_alphabet_score seq = ∑ v ∈ Finset.range 256, specDiff seq v ^ 2 := by
  unfold freq_and_alphabet_score
  rw [foldl_add_sum (fun i => scoreDiff seq i * scoreDiff seq i) 0 256, zero_add]
  refine Finset.sum_congr rfl fun v _ => ?_
  rw [scoreDiff_eq_specDiff, sq]

/-- C5: XOR with the same equal-length key twice restores the message. -/
theorem c5_xor_self_inverse (m k : List Nat) (h : m.length = k.length) :
    (bitxor m k).bind (fun c => bitxor c k) = some m := by
  unfold bitxor
  rw [if_pos h]
  show bitxor (List.zipWith (fun x y => x ^^^ y) m k) k = some m
  have hlen : (List.zipWith (fun x y => x ^^^ y) m k).length = k.length := by
    rw [List.length_zipWith, h, min_self]
  unfold bitxor
  rw [if_pos hlen, zipWith_xor_cancel m k h]

/-- C5 witness: the round trip at a concrete message and key. -/
theorem c5_witness :
    ([1, 2, 3] : List Nat).length = ([4, 5, 6] : List Nat).length
      ∧ (bitxor [1, 2, 3] [4, 5, 6]).bind (fun c => bitxor c [4, 5, 6]) = some [1, 2, 3] :=
  ⟨rfl, c5_xor_self_inverse [1, 2, 3] [4, 5, 6] rfl⟩

/-- C6: XOR of unequal-length sequences always fails, never truncates; on
equal lengths it returns the index-aligned bitwise XOR of the inputs. -/
theorem c6_xor_length_contract (a b : List Nat) :
    (a.length ≠ b.length → bitxor a b = none)
      ∧ (a.length = b.length → ∃ c, bitxor a b = some c ∧ c.length = a.length
          ∧ ∀ i, i < c.length → c.getD i 0 = (a.getD i 0) ^^^ (b.getD i 0)) := by
  constructor
  · intro hne
    unfold bitxor
    rw [if_neg hne]
  · intro h
    refine ⟨List.zipWith (fun x y => x ^^^ y) a b, ?_, ?_, ?_⟩
    · unfold bitxor
      rw [if_pos h]
    · rw [List.length_zipWith, h, min_self]
    · intro i hi
      exact getD_zipWith_xor a b i hi

/-- C6 witness: a failing unequal-length pair and a successful equal pair. -/
theorem c6_witness :
    bitxor [1, 2] [3] = none
      ∧ ∃ c, bitxor [5, 6] [7, 8] = some c ∧ c.length = ([5, 6] : List Nat).length
          ∧ ∀ i, i < c.length →
              c.getD i 0 = (([5, 6] : List Nat).getD i 0) ^^^ (([7, 8] : List Nat).getD i 0) :=
  ⟨(c6_xor_length_contract [1, 2] [3]).1 (by decide), (c6_xor_length_contract [5, 6] [7, 8]).2 rfl⟩

/-- C7 (counterexample): the 27 table values do not sum to 1. -/
theorem c7_counterexample_sum_ne_one : ENGLISH_CHAR_FREQUENCIES.sum ≠ 1 := by
  norm_num [ENGLISH_CHAR_FREQUENCIES, List.sum_cons, List.sum_nil]

/-- C7 (amended): the table maps the 27 symbols to probabilities in the unit
interval, but their sum is 124/125 = 0.992, not 1. -/
theorem c7_frequency_table_amended :
    ENGLISH_CHAR_FREQUENCIES.length = 27
      ∧ (∀ q ∈ ENGLISH_CHAR_FREQUENCIES, 0 ≤ q ∧ q ≤ 1)
      ∧ ENGLISH_CHAR_FREQUENCIES.sum = 124 / 125 := by
  refine ⟨rfl, ?_, ?_⟩
  · intro q hq
    fin_cases hq <;> norm_num
  · norm_num [ENGLISH_CHAR_FREQUENCIES, List.sum_cons, List.sum_nil]

/-- C7 witness: the amended bounds at the first table entry. -/
theorem c7_witness : 0 ≤ (0.0653 : ℚ) ∧ (0.0653 : ℚ) ≤ 1 :=
  c7_frequency_table_amended.2.1 0.0653 (by simp [ENGLISH_CHAR_FREQUENCIES])

/-- C8: hex decoding fails exactly on odd length or a non-hex character, and
a successful decode consumes the whole input two characters per byte (no
truncation, no padding, no default). -/
theorem c8_hex_decode_failure_condition (s : List Nat) :
    (hexDecode s = none ↔ s.length % 2 = 1 ∨ ∃ c ∈ s, hexDigitVal c = none)
      ∧ (∀ bs, hexDecode s = some bs → 2 * bs.length = s.length) := by
  induction s using hexDecode.induct with
  | case1 => simp [hexDecode]
  | case2 a => simp [hexDecode]
  | case3 a b rest hi lo tl hrest hb ha ih =>
    have hstep : hexDecode (a :: b :: rest) = some ((16 * hi + lo) :: tl) := by
      simp [hexDecode, ha, hb, hrest]
    constructor
    · rw [hstep]
      constructor
      · intro hcontra
        exact Option.noConfusion hcontra
      · intro hcontra
        exfalso
        rcases hcontra with hodd | ⟨c, hc, hcnone⟩
        · have hro : rest.length % 2 = 1 := by
            simp only [List.length_cons] at hodd
            omega
          have hn := ih.1.mpr (Or.inl hro)
          rw [hrest] at hn
          exact Option.noConfusion hn
        · rcases List.mem_cons.mp hc with rfl | hc'
          · rw [hcnone] at ha
            exact Option.noConfusion ha
          rcases List.mem_cons.mp hc' with rfl | hc''
          · rw [hcnone] at hb
            exact Option.noConfusion hb
          · have hn := ih.1.mpr (Or.inr ⟨c, hc'', hcnone⟩)
            rw [hrest] at hn
            exact Option.noConfusion hn
    · intro bs hbs
      rw [hstep] at hbs
      have hb2 : (16 * hi + lo) :: tl = bs := Option.some.inj hbs
      rw [← hb2]
      have h2 := ih.2 tl hrest
      simp only [List.length_cons]
      omega
  | case4 a b rest hfail ih =>
    have hnone : hexDecode (a :: b :: rest) = none := by
      rcases hva : hexDigitVal a with _ | hi
      · simp [hexDecode, hva]
      rcases hvb : hexDigitVal b with _ | lo
      · simp [hexDecode, hva, hvb]
      rcases hvr : hexDecode rest with _ | tl
      · simp [hexDecode, hva, hvb, hvr]
      · exact (hfail hi lo tl hva hvb hvr).elim
    constructor
    · rw [hnone]
      constructor
      · intro _
        rcases hva : hexDigitVal a with _ | hi
        · exact Or.inr ⟨a, List.mem_cons_self a _, hva⟩
        rcases hvb : hexDigitVal b with _ | lo
        · exact Or.inr ⟨b, List.mem_cons_of_mem a (List.mem_cons_self b _), hvb⟩
        rcases hvr : hexDecode rest with _ | tl
        · rcases ih.1.mp hvr with hodd | ⟨c, hc, hcnone⟩
          · refine Or.inl ?_
            simp only [List.length_cons]
            omega
          · exact Or.inr ⟨c, List.mem_cons_of_mem a (List.mem_cons_of_mem b hc), hcnone⟩
        · exact (hfail hi lo tl hva hvb hvr).elim
      · intro _
        rfl
    · intro bs hbs
      rw [hnone] at hbs
      exact Option.noConfusion hbs

/-- C8 witness: decoding the four characters of the hex text 1b37. -/
theorem c8_witness :
    hexDecode [49, 98, 51, 55] = some [27, 55]
      ∧ 2 * ([27, 55] : List Nat).length = ([49, 98, 51, 55] : List Nat).length := by
  have h : hexDecode [49, 98, 51, 55] = some [27, 55] := by decide
  exact ⟨h, (c8_hex_decode_failure_condition [49, 98, 51, 55]).2 [27, 55] h⟩

/-- C9: with a non-empty key, repeating-key XOR keeps the message length and
XORs byte `i` with `key[i mod len(key)]`; with an empty key and a non-empty
message it hits the XOR length-mismatch failure. -/
theorem c9_repeating_key_xor (message key : List Nat) :
    (key ≠ [] → ∃ c, encrypt_repeating_key_xor message key = some c
        ∧ c.length = message.length
        ∧ ∀ i, i < message.length →
            c.getD i 0 = (message.getD i 0) ^^^ (key.getD (i % key.length) 0))
      ∧ (key = [] → message ≠ [] → encrypt_repeating_key_xor message key = none) := by
  constructor
  · intro hk
    have hkl : key.length ≠ 0 := fun h0 => hk (List.length_eq_zero.mp h0)
    have hcyc : cycleTake key message.length
        = (List.range message.length).map (fun i => key.getD (i % key.length) 0) := by
      unfold cycleTake
      rw [if_neg hkl]
    have hlen : (cycleTake key message.length).length = message.length := by
      rw [hcyc, List.length_map, List.length_range]
    refine ⟨List.zipWith (fun x y => x ^^^ y) message (cycleTake key message.length), ?_, ?_, ?_⟩
    · unfold encrypt_repeating_key_xor bitxor
      rw [if_pos hlen.symm]
    · rw [List.length_zipWith, hlen, min_self]
    · intro i hi
      have hz : i < (List.zipWith (fun x y => x ^^^ y) message (cycleTake key message.length)).length := by
        rw [List.length_zipWith, hlen, min_self]
        exact hi
      rw [getD_zipWith_xor _ _ i hz]
      congr 1
      rw [hcyc, List.getD_eq_getElem _ _ (by rw [List.length_map, List.length_range]; exact hi)]
      rw [List.getElem_map, List.getElem_range]
  · intro hk hm
    subst hk
    have hm0 : message.length ≠ 0 := fun h0 => hm (List.length_eq_zero.mp h0)
    show bitxor message [] = none
    unfold bitxor
    rw [if_neg (by simpa using hm0)]

/-- C9 witness: a three-byte message with a two-byte key, and the empty-key
failure on a one-byte message. -/
theorem c9_witness :
    (∃ c, encrypt_repeating_key_xor [1, 2, 3] [5, 6] = some c
        ∧ c.length = ([1, 2, 3] : List Nat).length
        ∧ ∀ i, i < ([1, 2, 3] : List Nat).length →
            c.getD i 0 = (([1, 2, 3] : List Nat).getD i 0)
              ^^^ (([5, 6] : List Nat).getD (i % ([5, 6] : List Nat).length) 0))
      ∧ encrypt_repeating_key_xor [1] [] = none :=
  ⟨(c9_repeating_key_xor [1, 2, 3] [5, 6]).1 (by decide),
    (c9_repeating_key_xor [1] []).2 rfl (by decide)⟩

/-- C10 (counterexample): the attack on the empty ciphertext does not return
key 255; `min_by` keeps the first of the 256 tied candidates, key 0. -/
theorem c10_counterexample_key_not_255 :
    (attack_single_byte_xor []).map (fun r => r.1) ≠ some 255 := by
  rw [attack_nil]
  simp

/-- C10 (amended): the attack on the empty ciphertext succeeds with key 0,
distance 0 and the empty plaintext, all 256 candidates tying at score 0. -/
theorem c10_attack_empty_ciphertext :
    attack_single_byte_xor [] = some (0, 0, [])
      ∧ ∀ k, k < 256 → freq_and_alphabet_score (decryptWith [] k) = 0 :=
  ⟨attack_nil, fun _ _ => score_nil⟩

/-- C10 witness: the tied zero score at key 42. -/
theorem c10_witness :
    attack_single_byte_xor [] = some (0, 0, [])
      ∧ freq_and_alphabet_score (decryptWith [] 42) = 0 :=
  ⟨c10_attack_empty_ciphertext.1, c10_attack_empty_ciphertext.2 42 (by norm_num)⟩

end Cryptopals
